import Mathlib

/-!
Verification of src/regex.py, a small regular-expression engine with
literal characters, the wildcard dot, and the postfix quantifiers star
and plus.  The development models, close to the source:

* RegexFSM.new: the constructor RegexFSM.init (lines 101-136), building
  the initial heap of state objects; the AttributeError raised for an
  unsupported character is modelled as Except.error carrying the message
  of the raise.

* checkStringEffect: the heap mutations performed by check_string
  (lines 138-167): fresh state objects are allocated by rescanning
  regex_expr on every call, linked into a chain, and the next_states
  list of start_state is reassigned.

* buildStates, canMatchF, checkString: the boolean verdict computed by
  check_string (lines 138-186).  The chain of states built by the scan
  is modelled as a list of trees (RTree), and the nested recursive
  search can_match as a fuel-indexed function canMatchF; the fuel only
  makes the recursion structural, and canMatchF_isSome shows the chosen
  fuel is never exhausted from the entry point.
-/

/-- Python str.isascii for a single character: code point below 128. -/
def pyIsAscii (c : Char) : Bool := decide (c.toNat < 128)

/-- Variant tag of a state object, with the payload of the variant.  The
pstar and pplus payloads are the heap index of the wrapped inner state,
mirroring the inner_state attribute of StarState and PlusState. -/
inductive PKind where
| pstart
| pterm
| pdot
| pascii (sym : Char)
| pstar (inner : Nat)
| pplus (inner : Nat)
deriving DecidableEq

/-- A state object: its variant and its next_states list of heap indices. -/
structure PNode where
  kind : PKind
  next : List Nat
deriving DecidableEq

/-- The engine instance: regex_expr, the heap of state objects allocated
so far, and the heap index of start_state. -/
structure RegexFSM where
  regex_expr : List Char
  heap : List PNode
  start_state : Nat
deriving DecidableEq

/-- RegexFSM.init_next_state (lines 113-136): allocate one new state
object for the token at the end of the heap.  The prev_state parameter
is unused, exactly as in the source.  The star and plus cases record the
wrapped state both as payload and as the single entry of the new next
list (lines 123-124 and 127-128).  A token that is none of dot, star,
plus and is not ASCII raises AttributeError (line 134). -/
def initNextState (heap : List PNode) (next_token : Char) (_prev_state tmp_next_state : Nat) :
    Except String (List PNode × Nat) :=
  if next_token = '.' then .ok (heap ++ [⟨.pdot, []⟩], heap.length)
  else if next_token = '*' then
    .ok (heap ++ [⟨.pstar tmp_next_state, [tmp_next_state]⟩], heap.length)
  else if next_token = '+' then
    .ok (heap ++ [⟨.pplus tmp_next_state, [tmp_next_state]⟩], heap.length)
  else if pyIsAscii next_token then .ok (heap ++ [⟨.pascii next_token, []⟩], heap.length)
  else .error "Character is not supported"

/-- Replace the next list of the node at heap index i by f applied to it;
out-of-range indices leave the heap unchanged (never reached from the
modelled code). -/
def modifyNext (heap : List PNode) (i : Nat) (f : List Nat → List Nat) : List PNode :=
  match heap.get? i with
  | none => heap
  | some nd => heap.set i ⟨nd.kind, f nd.next⟩

/-- Loop of RegexFSM.init (lines 109-111): for each character, allocate
the next state and append it to the next list of prev_state.  The source
never advances prev_state, so it stays the start state throughout. -/
def compileLoop : List Char → List PNode → Nat → Nat → Except String (List PNode)
| [], heap, _, _ => .ok heap
| c :: rest, heap, prev, tmp =>
  match initNextState heap c prev tmp with
  | .error e => .error e
  | .ok (heap2, idx) => compileLoop rest (modifyNext heap2 prev (fun l => l ++ [idx])) prev idx

/-- RegexFSM.init (lines 101-111): one start state at heap index 0,
then the scan of the pattern. -/
def RegexFSM.new (regex_expr : List Char) : Except String RegexFSM :=
  match compileLoop regex_expr [⟨.pstart, []⟩] 0 0 with
  | .error e => .error e
  | .ok heap => .ok ⟨regex_expr, heap, 0⟩

/-- Whether an Except value is a success. -/
def exOk {ε α : Type} : Except ε α → Bool
| .ok _ => true
| .error _ => false

/-- One iteration of the scan in check_string (lines 141-157), acting on
the heap and the states list, the latter holding heap indices with the
most recently appended entry first.  A star or plus finding a nonempty
states list pops the last entry and wraps it, recording it both as
payload and as the single entry of the new next list; otherwise the
character, star and plus included, becomes a fresh AsciiState. -/
def checkScanStep : List PNode × List Nat → Char → List PNode × List Nat
| (heap, prev :: rest), c =>
  if c = '*' then (heap ++ [⟨.pstar prev, [prev]⟩], heap.length :: rest)
  else if c = '+' then (heap ++ [⟨.pplus prev, [prev]⟩], heap.length :: rest)
  else if c = '.' then (heap ++ [⟨.pdot, []⟩], heap.length :: prev :: rest)
  else (heap ++ [⟨.pascii c, []⟩], heap.length :: prev :: rest)
| (heap, []), c =>
  if c = '.' then (heap ++ [⟨.pdot, []⟩], [heap.length])
  else (heap ++ [⟨.pascii c, []⟩], [heap.length])

/-- Linking loop of check_string (lines 159-160): append each chain entry
as a successor of the one before it; the argument list is in chain order. -/
def linkChain : List PNode → List Nat → List PNode
| heap, a :: b :: rest => linkChain (modifyNext heap a (fun l => l ++ [b])) (b :: rest)
| heap, _ => heap

/-- Heap effect of one call of check_string (lines 138-167): allocate
fresh state objects by rescanning regex_expr, link them, allocate one
termination state, append it after the last chain entry, and reassign
the next list of start_state.  The boolean verdict of the call is
computed by the nested can_match, modelled separately by canMatchF. -/
def checkStringEffect (m : RegexFSM) : RegexFSM :=
  let scanned := m.regex_expr.foldl checkScanStep (m.heap, [])
  let statesOrd := scanned.2.reverse
  let heap2 := linkChain scanned.1 statesOrd
  let termIdx := heap2.length
  let heap3 := heap2 ++ [⟨.pterm, []⟩]
  match statesOrd with
  | [] => { m with heap := modifyNext heap3 m.start_state (fun _ => [termIdx]) }
  | s0 :: tail =>
    let heap4 := modifyNext heap3 ((s0 :: tail).getLastD 0) (fun l => l ++ [termIdx])
    { m with heap := modifyNext heap4 m.start_state (fun _ => [s0]) }

/-- A chain entry built by the scan in check_string, as a tree: a star or
plus wrapper holds the state object it wrapped, which is also the single
construction-time entry of its next list. -/
inductive RTree where
| dot
| ascii (sym : Char)
| star (inner : RTree)
| plus (inner : RTree)
deriving DecidableEq

/-- One iteration of the scan (lines 141-157) at the level of trees; the
accumulator holds the states with the most recently appended entry
first, so popping the last Python list entry is taking the head. -/
def scanStepR (rev : List RTree) (c : Char) : List RTree :=
  match rev with
  | p :: r =>
    if c = '*' then .star p :: r
    else if c = '+' then .plus p :: r
    else if c = '.' then .dot :: p :: r
    else .ascii c :: p :: r
  | [] =>
    if c = '.' then [.dot]
    else [.ascii c]

/-- The chain of states, in chain order, that check_string builds from
the pattern (lines 139-157). -/
def buildStates (p : List Char) : List RTree := (p.foldl scanStepR []).reverse

/-- Reads back the tree structure of the state object at a heap index:
the variant of the node and, through the pstar and pplus payloads, the
trees of the wrapped states.  The fuel bounds the depth; the start and
termination markers have no tree. -/
def decodeTree (heap : List PNode) : Nat → Nat → Option RTree
| 0, _ => none
| fuel + 1, i =>
  match heap.get? i with
  | some ⟨.pdot, _⟩ => some .dot
  | some ⟨.pascii c, _⟩ => some (.ascii c)
  | some ⟨.pstar j, _⟩ => (decodeTree heap fuel j).map .star
  | some ⟨.pplus j, _⟩ => (decodeTree heap fuel j).map .plus
  | _ => none

/-- A state as can_match sees it.  startS is the start state, whose next
list is the head of the chain, or the termination state for an empty
chain (lines 165-167).  node is a chain entry together with the rest of
the chain after it; after linking, its next list is its
construction-time inner edge, if any, followed by its chain successor or
the termination state (lines 146, 151, 159-164).  inner is a wrapped
state popped off the chain, whose next list is just its
construction-time inner edge, if any.  term is the termination state. -/
inductive MState where
| startS (chain : List RTree)
| node (t : RTree) (rest : List RTree)
| inner (t : RTree)
| term
deriving DecidableEq

/-- check_self of a state that is not linked into the chain: DotState
always matches (line 52), AsciiState compares its symbol (line 68),
PlusState asks its inner state (line 95), and a popped StarState scans
its next list (lines 80-84), which holds exactly its inner state. -/
def treeCheckSelf : RTree → Char → Bool
| .dot, _ => true
| .ascii a, c => a == c
| .star u, c => treeCheckSelf u c
| .plus u, c => treeCheckSelf u c

/-- check_self along the chain: the head of the list is the state asked,
the tail is the chain after it, and the empty list stands for the
termination state, which never matches (line 38).  A chain StarState
scans its next list (lines 80-84), which after linking is its inner
state followed by its chain successor; the other variants do not look at
their next list. -/
def chainCheckSelf : List RTree → Char → Bool
| [], _ => false
| .dot :: _, _ => true
| .ascii a :: _, c => a == c
| .plus u :: _, c => treeCheckSelf u c
| .star u :: rest, c => treeCheckSelf u c || chainCheckSelf rest c

/-- check_self of a matcher state.  StartState.check_self returns the
None of the abstract method (lines 29-30), which Python treats as false. -/
def checkSelf : MState → Char → Bool
| .startS _, _ => false
| .term, _ => false
| .inner t, c => treeCheckSelf t c
| .node t rest, c => chainCheckSelf (t :: rest) c

/-- Construction-time inner edge of a wrapper (lines 124, 128, 146, 151):
the popped state appended to the next list of a new StarState or
PlusState. -/
def innerNexts : RTree → List MState
| .star u => [.inner u]
| .plus u => [.inner u]
| .dot => []
| .ascii _ => []

/-- The chain successor: the next chain entry, or, after the last one,
the termination state (lines 160, 164). -/
def succNode : List RTree → MState
| [] => .term
| t :: r => .node t r

/-- The next_states list of a matcher state after check_string finished
linking (lines 146, 151, 159-167). -/
def nexts : MState → List MState
| .startS [] => [.term]
| .startS (t :: r) => [.node t r]
| .node t rest => innerNexts t ++ [succNode rest]
| .inner t => innerNexts t
| .term => []

/-- isinstance TerminationState. -/
def isTerm : MState → Bool
| .term => true
| _ => false

/-- isinstance StarState (line 181); PlusState is not a subclass. -/
def isStarState : MState → Bool
| .node (.star _) _ => true
| .inner (.star _) => true
| _ => false

/-- Short-circuit disjunction on results that may be unavailable: none
propagates from the left, mirroring the order in which Python evaluates
an or chain with early return. -/
def orO : Option Bool → Option Bool → Option Bool
| none, _ => none
| some true, _ => some true
| some false, b => b

/-- Short-circuit any over a list, with orO combining the results. -/
def anyO {α : Type} : List α → (α → Option Bool) → Option Bool
| [], _ => some false
| x :: xs, f => orO (f x) (anyO xs f)

/-- The nested function can_match of check_string (lines 169-184), with a
fuel argument that makes the recursion structural.  The result none
means the fuel ran out or, in the branch reading the input at an
out-of-range position, that the source would have raised an IndexError;
canMatchF_isSome shows that neither happens from the entry point with
the fuel checkString supplies. -/
def canMatchF : Nat → MState → List Char → Nat → Option Bool
| 0, _, _, _ => none
| fuel + 1, state, s, pos =>
  if pos = s.length then
    anyO (nexts state) fun n =>
      if isTerm n then some true else canMatchF fuel n s pos
  else
    match s.get? pos with
    | none => none
    | some c =>
      orO
        (if checkSelf state c then canMatchF fuel state s (pos + 1) else some false)
        (anyO (nexts state) fun n =>
          orO
            (if checkSelf n c then canMatchF fuel n s (pos + 1) else some false)
            (if isStarState n then canMatchF fuel n s pos else some false))

/-- Size of a tree: the number of state objects hanging off it. -/
def tsize : RTree → Nat
| .dot => 1
| .ascii _ => 1
| .star u => tsize u + 1
| .plus u => tsize u + 1

/-- Size of a chain suffix, the termination state included. -/
def chainsize : List RTree → Nat
| [] => 1
| t :: r => tsize t + 1 + chainsize r

/-- Size of a matcher state; every next edge strictly decreases it. -/
def msize : MState → Nat
| .term => 0
| .inner t => tsize t
| .node t rest => tsize t + chainsize rest
| .startS chain => chainsize chain

/-- Fuel sufficient for can_match from the start state, by
canMatchF_isSome. -/
def enoughFuel (chain : List RTree) (s : List Char) : Nat :=
  s.length + msize (.startS chain) + 1

/-- The boolean verdict of check_string (lines 138-186) on an input. -/
def checkString (p s : List Char) : Option Bool :=
  canMatchF (enoughFuel (buildStates p) s) (.startS (buildStates p)) s 0

/-- Characterization, written from the specification side for claim C1,
of the strings the engine accepts for a pattern of literal characters
only: being at the state for character c with the characters r of the
pattern still ahead, the rest of the input may stop here, consume one
more c and stay, or consume the next pattern character and advance. -/
def acceptLit : Char → List Char → List Char → Bool
| _, _, [] => true
| c, r, x :: s =>
  ((c == x) && acceptLit c r s) ||
    match r with
    | [] => false
    | c2 :: r2 => (c2 == x) && acceptLit c2 r2 s

/-- Acceptance from the start state for a pattern of literal characters
only: the empty input is accepted outright, and a nonempty input must
enter the state of the first pattern character. -/
def acceptLitStart : List Char → List Char → Bool
| _, [] => true
| [], _ :: _ => false
| c :: r, x :: s => (c == x) && acceptLit c r s

/-- A pattern character that is an ordinary literal: not a star, not a
plus, not the wildcard dot. -/
def isLiteralChar (c : Char) : Bool := c != '*' && c != '+' && c != '.'

theorem orO_none (b : Option Bool) : orO none b = none := rfl

theorem orO_true (b : Option Bool) : orO (some true) b = some true := rfl

theorem orO_false (b : Option Bool) : orO (some false) b = b := rfl

theorem orO_some (a b : Bool) : orO (some a) (some b) = some (a || b) := by
  cases a <;> rfl

theorem orO_assoc (a b c : Option Bool) : orO (orO a b) c = orO a (orO b c) := by
  rcases a with _ | _ | _ <;> rfl

theorem orO_isSome {a b : Option Bool} (ha : a.isSome) (hb : b.isSome) :
    (orO a b).isSome := by
  rcases a with _ | _ | _
  · simp at ha
  · exact hb
  · rfl

theorem orO_right_true {a : Option Bool} (ha : a.isSome) : orO a (some true) = some true := by
  rcases a with _ | _ | _
  · simp at ha
  · rfl
  · rfl

theorem ifSome (cond : Bool) (X : Option Bool) (b : Bool) (hx : X = some b) :
    (if cond then X else some false) = some (cond && b) := by
  cases cond <;> simp [hx]

theorem anyO_nil {α : Type} (f : α → Option Bool) : anyO [] f = some false := rfl

theorem anyO_cons {α : Type} (x : α) (xs : List α) (f : α → Option Bool) :
    anyO (x :: xs) f = orO (f x) (anyO xs f) := rfl

theorem anyO_append {α : Type} (l1 l2 : List α) (f : α → Option Bool) :
    anyO (l1 ++ l2) f = orO (anyO l1 f) (anyO l2 f) := by
  induction l1 with
  | nil => rfl
  | cons x xs ih => simp [anyO_cons, ih, orO_assoc]

theorem anyO_all_false {α : Type} {l : List α} {f : α → Option Bool}
    (h : ∀ x ∈ l, f x = some false) : anyO l f = some false := by
  induction l with
  | nil => rfl
  | cons x xs ih =>
    rw [anyO_cons, h x (by simp), orO_false]
    exact ih fun y hy => h y (by simp [hy])

theorem anyO_isSome {α : Type} {l : List α} {f : α → Option Bool}
    (h : ∀ x ∈ l, (f x).isSome) : (anyO l f).isSome := by
  induction l with
  | nil => rfl
  | cons x xs ih =>
    rw [anyO_cons]
    exact orO_isSome (h x (by simp)) (ih fun y hy => h y (by simp [hy]))

theorem anyO_congr {α : Type} {l : List α} {f g : α → Option Bool}
    (h : ∀ x ∈ l, f x = g x) : anyO l f = anyO l g := by
  induction l with
  | nil => rfl
  | cons x xs ih =>
    rw [anyO_cons, anyO_cons, h x (by simp)]
    exact congrArg _ (ih fun y hy => h y (by simp [hy]))

theorem orO_mono {a a2 b b2 : Option Bool}
    (ha : ∀ v, a = some v → a2 = some v) (hb : ∀ v, b = some v → b2 = some v) :
    ∀ v, orO a b = some v → orO a2 b2 = some v := by
  intro v h
  rcases a with _ | _ | _
  · exact absurd h (by simp [orO])
  · rw [orO_false] at h
    rw [ha false rfl, orO_false]
    exact hb v h
  · rw [orO_true] at h
    rw [ha true rfl, orO_true]
    exact h

theorem anyO_mono {α : Type} {l : List α} {f g : α → Option Bool}
    (h : ∀ x ∈ l, ∀ v, f x = some v → g x = some v) :
    ∀ v, anyO l f = some v → anyO l g = some v := by
  induction l with
  | nil => intro v hv; exact hv
  | cons x xs ih =>
    rw [anyO_cons, anyO_cons]
    exact orO_mono (h x (by simp)) (ih fun y hy => h y (by simp [hy]))

theorem tsize_pos (t : RTree) : 1 ≤ tsize t := by
  cases t <;> simp [tsize]

theorem chainsize_pos (l : List RTree) : 1 ≤ chainsize l := by
  cases l with
  | nil => simp [chainsize]
  | cons t r => have := tsize_pos t; simp [chainsize]; omega

theorem innerNexts_mem {t : RTree} {n : MState} (h : n ∈ innerNexts t) :
    ∃ u, n = .inner u ∧ tsize u < tsize t := by
  cases t with
  | dot => simp [innerNexts] at h
  | ascii a => simp [innerNexts] at h
  | star u => simp [innerNexts] at h; exact ⟨u, h, by simp [tsize]⟩
  | plus u => simp [innerNexts] at h; exact ⟨u, h, by simp [tsize]⟩

theorem msize_lt_of_mem_nexts {st n : MState} (h : n ∈ nexts st) : msize n < msize st := by
  cases st with
  | startS chain =>
    cases chain with
    | nil =>
      simp [nexts] at h
      subst h
      simp [msize, chainsize]
    | cons t r =>
      simp [nexts] at h
      subst h
      have := tsize_pos t
      simp [msize, chainsize]
  | node t rest =>
    simp only [nexts, List.mem_append] at h
    rcases h with h | h
    · obtain ⟨u, rfl, hu⟩ := innerNexts_mem h
      have := chainsize_pos rest
      simp [msize]
      omega
    · simp at h
      subst h
      cases rest with
      | nil =>
        have := tsize_pos t
        have := chainsize_pos ([] : List RTree)
        simp [succNode, msize]
        omega
      | cons t2 r2 =>
        have := tsize_pos t
        simp [succNode, msize, chainsize]
        omega
  | inner t =>
    obtain ⟨u, rfl, hu⟩ := innerNexts_mem h
    simpa [msize] using hu
  | term => simp [nexts] at h

theorem canMatchF_zero (st : MState) (s : List Char) (pos : Nat) :
    canMatchF 0 st s pos = none := rfl

theorem canMatchF_succ (fuel : Nat) (state : MState) (s : List Char) (pos : Nat) :
    canMatchF (fuel + 1) state s pos =
      if pos = s.length then
        anyO (nexts state) fun n =>
          if isTerm n then some true else canMatchF fuel n s pos
      else
        match s.get? pos with
        | none => none
        | some c =>
          orO
            (if checkSelf state c then canMatchF fuel state s (pos + 1) else some false)
            (anyO (nexts state) fun n =>
              orO
                (if checkSelf n c then canMatchF fuel n s (pos + 1) else some false)
                (if isStarState n then canMatchF fuel n s pos else some false)) := rfl

theorem canMatchF_base (fuel : Nat) (state : MState) (s : List Char) (pos : Nat)
    (h : pos = s.length) :
    canMatchF (fuel + 1) state s pos =
      anyO (nexts state) fun n =>
        if isTerm n then some true else canMatchF fuel n s pos := by
  rw [canMatchF_succ, if_pos h]

theorem canMatchF_step (fuel : Nat) (state : MState) (s : List Char) (pos : Nat) (c : Char)
    (hne : pos ≠ s.length) (hget : s.get? pos = some c) :
    canMatchF (fuel + 1) state s pos =
      orO
        (if checkSelf state c then canMatchF fuel state s (pos + 1) else some false)
        (anyO (nexts state) fun n =>
          orO
            (if checkSelf n c then canMatchF fuel n s (pos + 1) else some false)
            (if isStarState n then canMatchF fuel n s pos else some false)) := by
  rw [canMatchF_succ, if_neg hne, hget]

theorem canMatchF_none (fuel : Nat) (state : MState) (s : List Char) (pos : Nat)
    (hne : pos ≠ s.length) (hget : s.get? pos = none) :
    canMatchF (fuel + 1) state s pos = none := by
  rw [canMatchF_succ, if_neg hne, hget]

theorem canMatchF_shift : ∀ (fuel : Nat) (st : MState) (x : Char) (s : List Char) (pos : Nat),
    canMatchF fuel st (x :: s) (pos + 1) = canMatchF fuel st s pos := by
  intro fuel
  induction fuel with
  | zero => intro st x s pos; rfl
  | succ f ih =>
    intro st x s pos
    rw [canMatchF_succ, canMatchF_succ]
    by_cases h : pos = s.length
    · rw [if_pos (by simp [h]), if_pos h]
      exact anyO_congr fun n _ => by
        by_cases ht : isTerm n
        · simp [ht]
        · simp only [if_neg ht, ih]
    · rw [if_neg (by simp [h]), if_neg h]
      have hget : (x :: s).get? (pos + 1) = s.get? pos := rfl
      rw [hget]
      cases hc : s.get? pos with
      | none => rfl
      | some c => simp only [ih]

theorem canMatchF_mono : ∀ (f g : Nat), f ≤ g → ∀ (st : MState) (s : List Char) (pos : Nat)
    (b : Bool), canMatchF f st s pos = some b → canMatchF g st s pos = some b := by
  intro f
  induction f with
  | zero => intro g _ st s pos b h; exact absurd h (by simp [canMatchF_zero])
  | succ f ih =>
    intro g hg st s pos b h
    obtain ⟨g2, rfl⟩ : ∃ g2, g = g2 + 1 := ⟨g - 1, by omega⟩
    have hfg : f ≤ g2 := by omega
    by_cases hp : pos = s.length
    · rw [canMatchF_base f st s pos hp] at h
      rw [canMatchF_base g2 st s pos hp]
      refine anyO_mono (fun n _ v hv => ?_) b h
      by_cases ht : isTerm n
      · rw [if_pos ht] at hv ⊢; exact hv
      · rw [if_neg ht] at hv ⊢; exact ih g2 hfg n s pos v hv
    · cases hc : s.get? pos with
      | none => rw [canMatchF_none f st s pos hp hc] at h; exact absurd h (by simp)
      | some c =>
        rw [canMatchF_step f st s pos c hp hc] at h
        rw [canMatchF_step g2 st s pos c hp hc]
        refine orO_mono (fun v hv => ?_) (anyO_mono fun n _ => orO_mono (fun v hv => ?_)
          (fun v hv => ?_)) b h
        · by_cases hs : checkSelf st c
          · rw [if_pos hs] at hv ⊢; exact ih g2 hfg st s (pos + 1) v hv
          · rw [if_neg hs] at hv ⊢; exact hv
        · by_cases hs : checkSelf n c
          · rw [if_pos hs] at hv ⊢; exact ih g2 hfg n s (pos + 1) v hv
          · rw [if_neg hs] at hv ⊢; exact hv
        · by_cases hs : isStarState n
          · rw [if_pos hs] at hv ⊢; exact ih g2 hfg n s pos v hv
          · rw [if_neg hs] at hv ⊢; exact hv

theorem canMatchF_isSome : ∀ (fuel : Nat) (st : MState) (s : List Char) (pos : Nat),
    pos ≤ s.length → s.length - pos + msize st < fuel → (canMatchF fuel st s pos).isSome := by
  intro fuel
  induction fuel with
  | zero => intro st s pos _ hf; exact absurd hf (by omega)
  | succ f ih =>
    intro st s pos hp hf
    by_cases h : pos = s.length
    · rw [canMatchF_base f st s pos h]
      refine anyO_isSome fun n hn => ?_
      by_cases ht : isTerm n
      · simp [ht]
      · rw [if_neg ht]
        have := msize_lt_of_mem_nexts hn
        exact ih n s pos hp (by omega)
    · have hlt : pos < s.length := lt_of_le_of_ne hp h
      obtain ⟨c, hc⟩ : ∃ c, s.get? pos = some c := by
        cases hg : s.get? pos with
        | none => exact absurd (List.get?_eq_none.mp hg) (by omega)
        | some c => exact ⟨c, rfl⟩
      rw [canMatchF_step f st s pos c h hc]
      refine orO_isSome ?_ (anyO_isSome fun n hn => orO_isSome ?_ ?_)
      · by_cases hs : checkSelf st c
        · rw [if_pos hs]; exact ih st s (pos + 1) hlt (by omega)
        · rw [if_neg hs]; rfl
      · have := msize_lt_of_mem_nexts hn
        by_cases hs : checkSelf n c
        · rw [if_pos hs]; exact ih n s (pos + 1) hlt (by omega)
        · rw [if_neg hs]; rfl
      · have := msize_lt_of_mem_nexts hn
        by_cases hs : isStarState n
        · rw [if_pos hs]; exact ih n s pos hp (by omega)
        · rw [if_neg hs]; rfl

theorem canMatchF_eval {f : Nat} {st : MState} {s : List Char} {pos : Nat} {b : Bool}
    (hex : canMatchF f st s pos = some b) (hpos : pos ≤ s.length) {F : Nat}
    (hfuel : s.length - pos + msize st < F) : canMatchF F st s pos = some b := by
  obtain ⟨b2, hb2⟩ := Option.isSome_iff_exists.mp (canMatchF_isSome F st s pos hpos hfuel)
  have h3 := canMatchF_mono f (max f F) (le_max_left f F) st s pos b hex
  have h4 := canMatchF_mono F (max f F) (le_max_right f F) st s pos b2 hb2
  rw [h3] at h4
  rw [hb2, h4]

theorem canMatchF_inner_false : ∀ (fuel : Nat) (t : RTree) (s : List Char) (pos : Nat),
    pos ≤ s.length → s.length - pos + tsize t < fuel →
    canMatchF fuel (.inner t) s pos = some false := by
  intro fuel
  induction fuel with
  | zero => intro t s pos _ hf; exact absurd hf (by omega)
  | succ f ih =>
    intro t s pos hp hf
    have hrec : ∀ u, tsize u < tsize t → ∀ q, q ≤ s.length → pos ≤ q →
        canMatchF f (.inner u) s q = some false := by
      intro u hu q hq hpq
      exact ih u s q hq (by omega)
    by_cases h : pos = s.length
    · rw [canMatchF_base f (.inner t) s pos h]
      refine anyO_all_false fun n hn => ?_
      obtain ⟨u, rfl, hu⟩ := innerNexts_mem hn
      rw [if_neg (by simp [isTerm])]
      exact hrec u hu pos hp le_rfl
    · have hlt : pos < s.length := lt_of_le_of_ne hp h
      obtain ⟨c, hc⟩ : ∃ c, s.get? pos = some c := by
        cases hg : s.get? pos with
        | none => exact absurd (List.get?_eq_none.mp hg) (by omega)
        | some c => exact ⟨c, rfl⟩
      rw [canMatchF_step f (.inner t) s pos c h hc]
      have hself : canMatchF f (.inner t) s (pos + 1) = some false :=
        ih t s (pos + 1) hlt (by omega)
      have h1 : (if checkSelf (.inner t) c then canMatchF f (.inner t) s (pos + 1)
          else some false) = some false := by
        by_cases hs : checkSelf (.inner t) c
        · rw [if_pos hs]; exact hself
        · rw [if_neg hs]
      rw [h1, orO_false]
      refine anyO_all_false fun n hn => ?_
      obtain ⟨u, rfl, hu⟩ := innerNexts_mem hn
      have h2 : (if checkSelf (.inner u) c then canMatchF f (.inner u) s (pos + 1)
          else some false) = some false := by
        by_cases hs : checkSelf (.inner u) c
        · rw [if_pos hs]; exact hrec u hu (pos + 1) hlt (by omega)
        · rw [if_neg hs]
      have h3 : (if isStarState (.inner u) then canMatchF f (.inner u) s pos
          else some false) = some false := by
        by_cases hs : isStarState (.inner u)
        · rw [if_pos hs]; exact hrec u hu pos hp le_rfl
        · rw [if_neg hs]
      rw [h2, h3, orO_false]

theorem canMatchF_end_node : ∀ (rest : List RTree) (t : RTree) (s : List Char) (pos : Nat)
    (fuel : Nat), pos = s.length → msize (.node t rest) < fuel →
    canMatchF fuel (.node t rest) s pos = some true := by
  intro rest
  induction rest with
  | nil =>
    intro t s pos fuel hp hf
    have htp := tsize_pos t
    obtain ⟨f, rfl⟩ : ∃ f, fuel = f + 1 := ⟨fuel - 1, by simp [msize, chainsize] at hf; omega⟩
    rw [canMatchF_base f (.node t []) s pos hp]
    have hnx : nexts (.node t []) = innerNexts t ++ [succNode []] := rfl
    rw [hnx, anyO_append]
    have h1 : anyO (innerNexts t) (fun n => if isTerm n then some true
        else canMatchF f n s pos) = some false := by
      refine anyO_all_false fun n hn => ?_
      obtain ⟨u, rfl, hu⟩ := innerNexts_mem hn
      rw [if_neg (by simp [isTerm])]
      refine canMatchF_inner_false f u s pos (le_of_eq hp) ?_
      simp [msize, chainsize] at hf
      omega
    rw [h1, orO_false]
    rfl
  | cons t2 r2 ihrest =>
    intro t s pos fuel hp hf
    have htp := tsize_pos t
    obtain ⟨f, rfl⟩ : ∃ f, fuel = f + 1 :=
      ⟨fuel - 1, by have := chainsize_pos (t2 :: r2); simp [msize] at hf; omega⟩
    rw [canMatchF_base f (.node t (t2 :: r2)) s pos hp]
    have hnx : nexts (.node t (t2 :: r2)) = innerNexts t ++ [succNode (t2 :: r2)] := rfl
    rw [hnx, anyO_append]
    have h1 : anyO (innerNexts t) (fun n => if isTerm n then some true
        else canMatchF f n s pos) = some false := by
      refine anyO_all_false fun n hn => ?_
      obtain ⟨u, rfl, hu⟩ := innerNexts_mem hn
      rw [if_neg (by simp [isTerm])]
      refine canMatchF_inner_false f u s pos (le_of_eq hp) ?_
      have := chainsize_pos (t2 :: r2)
      simp [msize] at hf
      omega
    rw [h1, orO_false]
    have h2 : canMatchF f (.node t2 r2) s pos = some true := by
      refine ihrest t2 s pos f hp ?_
      simp [msize, chainsize] at hf ⊢
      omega
    have h3 : succNode (t2 :: r2) = .node t2 r2 := rfl
    rw [anyO_cons, h3, if_neg (by simp [isTerm]), h2, orO_true]

theorem canMatchF_end_start (chain : List RTree) (s : List Char) (pos : Nat) (fuel : Nat)
    (hp : pos = s.length) (hf : msize (.startS chain) < fuel) :
    canMatchF fuel (.startS chain) s pos = some true := by
  obtain ⟨f, rfl⟩ : ∃ f, fuel = f + 1 :=
    ⟨fuel - 1, by have := chainsize_pos chain; simp [msize] at hf; omega⟩
  rw [canMatchF_base f (.startS chain) s pos hp]
  cases chain with
  | nil => rfl
  | cons t r =>
    have h2 : canMatchF f (.node t r) s pos = some true := by
      refine canMatchF_end_node r t s pos f hp ?_
      have := tsize_pos t
      simp [msize, chainsize] at hf ⊢
      omega
    have hnx : nexts (.startS (t :: r)) = [.node t r] := rfl
    rw [hnx, anyO_cons, if_neg (by simp [isTerm]), h2, orO_true]

theorem initNextState_ascii (heap : List PNode) (tok : Char) (prev tmp : Nat)
    (h : pyIsAscii tok = true) :
    ∃ nd, initNextState heap tok prev tmp = .ok (heap ++ [nd], heap.length) := by
  unfold initNextState
  by_cases h1 : tok = '.'
  · rw [if_pos h1]; exact ⟨_, rfl⟩
  · rw [if_neg h1]
    by_cases h2 : tok = '*'
    · rw [if_pos h2]; exact ⟨_, rfl⟩
    · rw [if_neg h2]
      by_cases h3 : tok = '+'
      · rw [if_pos h3]; exact ⟨_, rfl⟩
      · rw [if_neg h3, if_pos h]; exact ⟨_, rfl⟩

theorem initNextState_nonascii (heap : List PNode) (tok : Char) (prev tmp : Nat)
    (h : pyIsAscii tok = false) :
    initNextState heap tok prev tmp = .error "Character is not supported" := by
  have h1 : tok ≠ '.' := by rintro rfl; exact absurd h (by decide)
  have h2 : tok ≠ '*' := by rintro rfl; exact absurd h (by decide)
  have h3 : tok ≠ '+' := by rintro rfl; exact absurd h (by decide)
  unfold initNextState
  rw [if_neg h1, if_neg h2, if_neg h3, if_neg (by simp [h])]

theorem compileLoop_ok : ∀ (p : List Char) (heap : List PNode) (prev tmp : Nat),
    p.all pyIsAscii = true → ∃ h2, compileLoop p heap prev tmp = .ok h2 := by
  intro p
  induction p with
  | nil => intro heap prev tmp _; exact ⟨heap, rfl⟩
  | cons c rest ih =>
    intro heap prev tmp hall
    rw [List.all_cons, Bool.and_eq_true] at hall
    obtain ⟨nd, hnd⟩ := initNextState_ascii heap c prev tmp hall.1
    obtain ⟨h2, hh2⟩ := ih (modifyNext (heap ++ [nd]) prev fun l => l ++ [heap.length])
      prev heap.length hall.2
    exact ⟨h2, by rw [compileLoop, hnd]; exact hh2⟩

theorem compileLoop_err : ∀ (p : List Char) (heap : List PNode) (prev tmp : Nat),
    p.all pyIsAscii = false →
    compileLoop p heap prev tmp = .error "Character is not supported" := by
  intro p
  induction p with
  | nil => intro heap prev tmp h; simp [List.all_nil] at h
  | cons c rest ih =>
    intro heap prev tmp hall
    cases hc : pyIsAscii c with
    | false => rw [compileLoop, initNextState_nonascii heap c prev tmp hc]
    | true =>
      rw [List.all_cons, hc, Bool.true_and] at hall
      obtain ⟨nd, hnd⟩ := initNextState_ascii heap c prev tmp hc
      rw [compileLoop, hnd]
      exact ih _ prev heap.length hall

theorem new_ok_iff (p : List Char) : exOk (RegexFSM.new p) = p.all pyIsAscii := by
  cases hall : p.all pyIsAscii with
  | true =>
    obtain ⟨h2, hh2⟩ := compileLoop_ok p [⟨.pstart, []⟩] 0 0 hall
    rw [RegexFSM.new, hh2]
    rfl
  | false =>
    rw [RegexFSM.new, compileLoop_err p [⟨.pstart, []⟩] 0 0 hall]
    rfl

theorem new_err (p : List Char) (h : p.all pyIsAscii = false) :
    RegexFSM.new p = .error "Character is not supported" := by
  rw [RegexFSM.new, compileLoop_err p [⟨.pstart, []⟩] 0 0 h]

theorem scanStepR_lit (rev : List RTree) (c : Char) (h1 : c ≠ '*') (h2 : c ≠ '+')
    (h3 : c ≠ '.') : scanStepR rev c = .ascii c :: rev := by
  cases rev <;> simp [scanStepR, h1, h2, h3]

theorem foldl_scanStepR_lit : ∀ (p : List Char) (rev : List RTree),
    (∀ c ∈ p, c ≠ '*' ∧ c ≠ '+' ∧ c ≠ '.') →
    p.foldl scanStepR rev = (p.map RTree.ascii).reverse ++ rev := by
  intro p
  induction p with
  | nil => intro rev _; rfl
  | cons c rest ih =>
    intro rev h
    obtain ⟨h1, h2, h3⟩ := h c (by simp)
    rw [List.foldl_cons, scanStepR_lit rev c h1 h2 h3,
      ih (.ascii c :: rev) fun x hx => h x (by simp [hx])]
    simp

theorem buildStates_lit (p : List Char) (h : ∀ c ∈ p, c ≠ '*' ∧ c ≠ '+' ∧ c ≠ '.') :
    buildStates p = p.map RTree.ascii := by
  rw [buildStates, foldl_scanStepR_lit p [] h]
  simp

theorem orO_sf (b : Bool) : orO (some b) (some false) = some b := by
  cases b <;> rfl

theorem canMatchF_lit_node : ∀ (s : List Char) (c : Char) (r : List Char) (fuel : Nat),
    s.length + msize (.node (.ascii c) (r.map RTree.ascii)) < fuel →
    canMatchF fuel (.node (.ascii c) (r.map RTree.ascii)) s 0 = some (acceptLit c r s) := by
  intro s
  induction s with
  | nil =>
    intro c r fuel hf
    rw [canMatchF_end_node (r.map RTree.ascii) (.ascii c) [] 0 fuel rfl (by simpa using hf)]
    rfl
  | cons x s2 ihs =>
    intro c r fuel hf
    obtain ⟨f, rfl⟩ : ∃ f, fuel = f + 1 := ⟨fuel - 1, by omega⟩
    have hne : (0 : Nat) ≠ (x :: s2).length := by simp
    have hget : (x :: s2).get? 0 = some x := rfl
    rw [canMatchF_step f _ (x :: s2) 0 x hne hget]
    have hcs : checkSelf (.node (.ascii c) (r.map RTree.ascii)) x = (c == x) := rfl
    have hA : canMatchF f (.node (.ascii c) (r.map RTree.ascii)) s2 0 =
        some (acceptLit c r s2) := by
      refine ihs c r f ?_
      simp only [List.length_cons] at hf
      omega
    have h1 : (if checkSelf (.node (.ascii c) (r.map RTree.ascii)) x then
        canMatchF f (.node (.ascii c) (r.map RTree.ascii)) (x :: s2) (0 + 1)
        else some false) = some ((c == x) && acceptLit c r s2) := by
      rw [canMatchF_shift f _ x s2 0, hA] at *
      simp only [hcs]
      exact ifSome (c == x) _ _ rfl
    have hnx : nexts (.node (.ascii c) (r.map RTree.ascii)) =
        [succNode (r.map RTree.ascii)] := rfl
    rw [h1, hnx, anyO_cons, anyO_nil]
    cases r with
    | nil =>
      have hterm : succNode (List.map RTree.ascii []) = .term := rfl
      rw [hterm]
      have helem : orO (if checkSelf .term x then canMatchF f .term (x :: s2) (0 + 1)
          else some false) (if isStarState .term then canMatchF f .term (x :: s2) 0
          else some false) = some false := rfl
      rw [helem, orO_sf, orO_sf]
      have hacc : acceptLit c [] (x :: s2) = (((c == x) && acceptLit c [] s2) || false) := rfl
      rw [hacc, Bool.or_false]
    | cons c2 r2 =>
      have hsucc : succNode ((c2 :: r2).map RTree.ascii) =
          .node (.ascii c2) (r2.map RTree.ascii) := rfl
      rw [hsucc]
      have hcs2 : checkSelf (.node (.ascii c2) (r2.map RTree.ascii)) x = (c2 == x) := rfl
      have hB : canMatchF f (.node (.ascii c2) (r2.map RTree.ascii)) s2 0 =
          some (acceptLit c2 r2 s2) := by
        refine ihs c2 r2 f ?_
        simp only [List.length_cons, msize, tsize, chainsize, List.map_cons] at hf ⊢
        omega
      have h2 : (if checkSelf (.node (.ascii c2) (r2.map RTree.ascii)) x then
          canMatchF f (.node (.ascii c2) (r2.map RTree.ascii)) (x :: s2) (0 + 1)
          else some false) = some ((c2 == x) && acceptLit c2 r2 s2) := by
        rw [canMatchF_shift f _ x s2 0, hB] at *
        simp only [hcs2]
        exact ifSome (c2 == x) _ _ rfl
      have h3 : (if isStarState (.node (.ascii c2) (r2.map RTree.ascii)) then
          canMatchF f (.node (.ascii c2) (r2.map RTree.ascii)) (x :: s2) 0
          else some false) = some false := rfl
      rw [h2, h3, orO_sf, orO_sf, orO_some]
      rfl

theorem canMatchF_lit_start (p s : List Char) (fuel : Nat)
    (hf : s.length + msize (.startS (p.map RTree.ascii)) < fuel) :
    canMatchF fuel (.startS (p.map RTree.ascii)) s 0 = some (acceptLitStart p s) := by
  cases s with
  | nil =>
    rw [canMatchF_end_start (p.map RTree.ascii) [] 0 fuel rfl (by simpa using hf)]
    cases p <;> rfl
  | cons x s2 =>
    obtain ⟨f, rfl⟩ : ∃ f, fuel = f + 1 := ⟨fuel - 1, by omega⟩
    have hne : (0 : Nat) ≠ (x :: s2).length := by simp
    have hget : (x :: s2).get? 0 = some x := rfl
    rw [canMatchF_step f _ (x :: s2) 0 x hne hget]
    have h1 : (if checkSelf (.startS (p.map RTree.ascii)) x then
        canMatchF f (.startS (p.map RTree.ascii)) (x :: s2) (0 + 1)
        else some false) = some false := rfl
    rw [h1, orO_false]
    cases p with
    | nil =>
      have hnx : nexts (.startS (List.map RTree.ascii [])) = [.term] := rfl
      rw [hnx, anyO_cons, anyO_nil]
      rfl
    | cons c r =>
      have hnx : nexts (.startS ((c :: r).map RTree.ascii)) =
          [.node (.ascii c) (r.map RTree.ascii)] := rfl
      rw [hnx, anyO_cons, anyO_nil]
      have hcs : checkSelf (.node (.ascii c) (r.map RTree.ascii)) x = (c == x) := rfl
      have hA : canMatchF f (.node (.ascii c) (r.map RTree.ascii)) s2 0 =
          some (acceptLit c r s2) := by
        refine canMatchF_lit_node s2 c r f ?_
        simp only [List.length_cons, msize, tsize, chainsize, List.map_cons] at hf ⊢
        omega
      have h2 : (if checkSelf (.node (.ascii c) (r.map RTree.ascii)) x then
          canMatchF f (.node (.ascii c) (r.map RTree.ascii)) (x :: s2) (0 + 1)
          else some false) = some ((c == x) && acceptLit c r s2) := by
        rw [canMatchF_shift f _ x s2 0, hA] at *
        simp only [hcs]
        exact ifSome (c == x) _ _ rfl
      have h3 : (if isStarState (.node (.ascii c) (r.map RTree.ascii)) then
          canMatchF f (.node (.ascii c) (r.map RTree.ascii)) (x :: s2) 0
          else some false) = some false := rfl
      rw [h2, h3, orO_sf, orO_sf]
      rfl

theorem canMatchF_empty_chain_reject (fuel : Nat) (x : Char) (s2 : List Char) :
    canMatchF (fuel + 1) (.startS []) (x :: s2) 0 = some false := rfl

theorem checkString_empty_reject (s : List Char) (h : s ≠ []) :
    checkString [] s = some false := by
  cases s with
  | nil => exact absurd rfl h
  | cons x s2 => exact canMatchF_empty_chain_reject (s2.length + 2) x s2

theorem starNode_accepts : ∀ n : Nat, ∃ f, canMatchF f
    (.node (.star (.ascii 'a')) [.ascii 'b', .ascii 'c'])
    (List.replicate n 'a' ++ ['b', 'c']) 0 = some true := by
  intro n
  induction n with
  | zero => exact ⟨12, by decide⟩
  | succ n ih =>
    obtain ⟨f, hf⟩ := ih
    refine ⟨f + 1, ?_⟩
    have hrep : List.replicate (n + 1) 'a' ++ ['b', 'c'] =
        'a' :: (List.replicate n 'a' ++ ['b', 'c']) := by
      simp [List.replicate_succ]
    rw [hrep]
    have hne : (0 : Nat) ≠ ('a' :: (List.replicate n 'a' ++ ['b', 'c'])).length := by simp
    have hget : ('a' :: (List.replicate n 'a' ++ ['b', 'c'])).get? 0 = some 'a' := rfl
    rw [canMatchF_step f _ _ 0 'a' hne hget]
    have hcs : checkSelf (.node (.star (.ascii 'a')) [.ascii 'b', .ascii 'c']) 'a' = true := by
      decide
    rw [if_pos hcs, canMatchF_shift f _ 'a' _ 0, hf, orO_true]

theorem c6_start_accepts : ∀ n : Nat, ∃ g, canMatchF g
    (.startS [.star (.ascii 'a'), .ascii 'b', .ascii 'c'])
    (List.replicate n 'a' ++ ['b', 'c']) 0 = some true := by
  intro n
  obtain ⟨f, hf⟩ := starNode_accepts n
  have hlen : (List.replicate n 'a' ++ ['b', 'c']).length = n + 2 := by simp
  have hmsz : msize (.node (.star (.ascii 'a')) [.ascii 'b', .ascii 'c']) = 7 := by decide
  refine ⟨max f (n + 12) + 1, ?_⟩
  have hne : (0 : Nat) ≠ (List.replicate n 'a' ++ ['b', 'c']).length := by omega
  obtain ⟨c0, hc0⟩ : ∃ c0, (List.replicate n 'a' ++ ['b', 'c']).get? 0 = some c0 := by
    cases hg : (List.replicate n 'a' ++ ['b', 'c']).get? 0 with
    | none => exact absurd (List.get?_eq_none.mp hg) (by omega)
    | some c => exact ⟨c, rfl⟩
  rw [canMatchF_step (max f (n + 12)) _ _ 0 c0 hne hc0]
  have h1 : (if checkSelf (.startS [.star (.ascii 'a'), .ascii 'b', .ascii 'c']) c0 then
      canMatchF (max f (n + 12)) (.startS [.star (.ascii 'a'), .ascii 'b', .ascii 'c'])
        (List.replicate n 'a' ++ ['b', 'c']) (0 + 1)
      else some false) = some false := rfl
  rw [h1, orO_false]
  have hnx : nexts (.startS [.star (.ascii 'a'), .ascii 'b', .ascii 'c']) =
      [.node (.star (.ascii 'a')) [.ascii 'b', .ascii 'c']] := rfl
  rw [hnx, anyO_cons, anyO_nil]
  have hXs : (if checkSelf (.node (.star (.ascii 'a')) [.ascii 'b', .ascii 'c']) c0 then
      canMatchF (max f (n + 12)) (.node (.star (.ascii 'a')) [.ascii 'b', .ascii 'c'])
        (List.replicate n 'a' ++ ['b', 'c']) (0 + 1)
      else some false).isSome := by
    by_cases hs : checkSelf (.node (.star (.ascii 'a')) [.ascii 'b', .ascii 'c']) c0
    · rw [if_pos hs]
      refine canMatchF_isSome (max f (n + 12)) _ _ (0 + 1) (by omega) ?_
      have := le_max_right f (n + 12)
      omega
    · rw [if_neg hs]; rfl
  obtain ⟨xb, hxb⟩ := Option.isSome_iff_exists.mp hXs
  rw [hxb]
  have hstar : isStarState (.node (.star (.ascii 'a')) [.ascii 'b', .ascii 'c']) = true := rfl
  rw [if_pos hstar]
  have hmono : canMatchF (max f (n + 12)) (.node (.star (.ascii 'a')) [.ascii 'b', .ascii 'c'])
      (List.replicate n 'a' ++ ['b', 'c']) 0 = some true :=
    canMatchF_mono f (max f (n + 12)) (le_max_left f (n + 12)) _ _ 0 true hf
  rw [hmono, orO_some, Bool.or_true, orO_true]

/-- C1 (counterexample): the engine compiled from the literal pattern ab
accepts the input a, a proper prefix of the pattern different from it,
so the match operation does not return true exactly for the pattern
itself. -/
theorem C1_counterexample :
    checkString ['a', 'b'] ['a'] = some true ∧
    checkString ['a', 'b'] ['a'] ≠ some false ∧
    (['a'] : List Char) ≠ ['a', 'b'] := by decide

/-- C1 (amended): for every pattern composed only of literal characters,
the match operation returns true exactly for the strings obtained by
taking a prefix of the pattern, possibly empty or the whole pattern, and
repeating each of its characters one or more times; every other string,
in particular every string that consumes past the pattern, is rejected.
The function acceptLitStart is that characterization. -/
theorem C1_literal_language (p : List Char) (hp : p.all isLiteralChar = true)
    (s : List Char) : checkString p s = some (acceptLitStart p s) := by
  have hlit : ∀ c ∈ p, c ≠ '*' ∧ c ≠ '+' ∧ c ≠ '.' := by
    intro c hc
    have h2 := List.all_eq_true.mp hp c hc
    simp [isLiteralChar] at h2
    tauto
  rw [checkString, buildStates_lit p hlit]
  refine canMatchF_lit_start p s _ ?_
  simp [enoughFuel]

/-- C1 (witness): the amended statement at the literal pattern ab and the
input aab, which inflates the first pattern character to a double run. -/
theorem C1_literal_language_witness :
    (['a', 'b'].all isLiteralChar = true) ∧
    checkString ['a', 'b'] ['a', 'a', 'b'] =
      some (acceptLitStart ['a', 'b'] ['a', 'a', 'b']) :=
  ⟨by decide, C1_literal_language ['a', 'b'] (by decide) ['a', 'a', 'b']⟩

/-- C2 (counterexample): compiling the pattern *ab succeeds and produces
an engine; no error of any kind is raised for a quantifier without an
operand. -/
theorem C2_counterexample : exOk (RegexFSM.new ['*', 'a', 'b']) = true := by decide

/-- C2 (amended): compiling a pattern whose star or plus has no preceding
atom does not abort: construction succeeds, and during matching the
leading quantifier character behaves as an ordinary literal, so the
pattern *ab accepts the input *ab and rejects the input ab. -/
theorem C2_leading_quantifier_literal :
    exOk (RegexFSM.new ['*', 'a', 'b']) = true ∧
    checkString ['*', 'a', 'b'] ['*', 'a', 'b'] = some true ∧
    checkString ['*', 'a', 'b'] ['a', 'b'] = some false := by decide

/-- C3: the match operation mutates the compiled state graph.  For the
engine compiled from the pattern a, whose start state has the next list
containing index 1, one call of check_string reassigns the next list of
the start state to the freshly allocated chain head, index 2, so the
start state differs before and after the call. -/
theorem C3_match_mutates_start_state :
    RegexFSM.new ['a'] = .ok ⟨['a'], [⟨.pstart, [1]⟩, ⟨.pascii 'a', []⟩], 0⟩ ∧
    (checkStringEffect ⟨['a'], [⟨.pstart, [1]⟩, ⟨.pascii 'a', []⟩], 0⟩).heap.get? 0 ≠
      (⟨['a'], [⟨.pstart, [1]⟩, ⟨.pascii 'a', []⟩], 0⟩ : RegexFSM).heap.get? 0 := by
  exact ⟨rfl, by decide⟩

/-- C4 (counterexample): the engine compiled from the pattern a.c accepts
the input ac, which the claim requires it to reject. -/
theorem C4_counterexample :
    checkString ['a', '.', 'c'] ['a', 'c'] = some true ∧
    checkString ['a', '.', 'c'] ['a', 'c'] ≠ some false := by decide

/-- C4 (amended): for the compiled pattern a.c the match operation
returns true for the inputs abc, aXc and a-space-c, and also returns
true for the input ac: the wildcard consumes the final character and
matching still accepts at end of input because the termination state is
reachable from there. -/
theorem C4_wildcard_examples :
    exOk (RegexFSM.new ['a', '.', 'c']) = true ∧
    checkString ['a', '.', 'c'] ['a', 'b', 'c'] = some true ∧
    checkString ['a', '.', 'c'] ['a', 'X', 'c'] = some true ∧
    checkString ['a', '.', 'c'] ['a', ' ', 'c'] = some true ∧
    checkString ['a', '.', 'c'] ['a', 'c'] = some true := by decide

/-- C5 (counterexample): two patterns whose offending non-ASCII
characters differ and sit at different indices compile to the very same
error value, so the error identifies neither the character nor its
index. -/
theorem C5_counterexample :
    RegexFSM.new ['é'] = .error "Character is not supported" ∧
    RegexFSM.new ['a', 'Ω'] = .error "Character is not supported" ∧
    RegexFSM.new ['é'] = RegexFSM.new ['a', 'Ω'] :=
  ⟨rfl, rfl, rfl⟩

/-- C5 (amended): compiling a pattern that contains a non-ASCII character
aborts construction with the constant unsupported-character error, whose
message names neither the offending character nor its index. -/
theorem C5_nonascii_error (p : List Char) (h : p.all pyIsAscii = false) :
    RegexFSM.new p = .error "Character is not supported" := new_err p h

/-- C5 (witness): the amended statement at a one-character non-ASCII
pattern. -/
theorem C5_nonascii_error_witness :
    (['é'].all pyIsAscii = false) ∧
    RegexFSM.new ['é'] = .error "Character is not supported" :=
  ⟨by decide, C5_nonascii_error ['é'] (by decide)⟩

/-- C6: for the compiled pattern a*bc the match operation returns true
for the input bc and for every input of n repetitions of a followed by
bc, for every n, and returns false for the input xbc. -/
theorem C6_star_pattern :
    exOk (RegexFSM.new ['a', '*', 'b', 'c']) = true ∧
    (∀ n : Nat,
      checkString ['a', '*', 'b', 'c'] (List.replicate n 'a' ++ ['b', 'c']) = some true) ∧
    checkString ['a', '*', 'b', 'c'] ['b', 'c'] = some true ∧
    checkString ['a', '*', 'b', 'c'] ['x', 'b', 'c'] = some false := by
  refine ⟨by decide, ?_, by decide, by decide⟩
  intro n
  obtain ⟨g, hg⟩ := c6_start_accepts n
  have hchain : buildStates ['a', '*', 'b', 'c'] =
      [.star (.ascii 'a'), .ascii 'b', .ascii 'c'] := by decide
  rw [checkString, hchain]
  refine canMatchF_eval hg (Nat.zero_le _) ?_
  simp [enoughFuel]

/-- C7: for the compiled pattern a+bc the match operation returns false
for the input bc and true for the inputs abc and aaabc: at least one a
is required before bc. -/
theorem C7_plus_pattern :
    exOk (RegexFSM.new ['a', '+', 'b', 'c']) = true ∧
    checkString ['a', '+', 'b', 'c'] ['b', 'c'] = some false ∧
    checkString ['a', '+', 'b', 'c'] ['a', 'b', 'c'] = some true ∧
    checkString ['a', '+', 'b', 'c'] ['a', 'a', 'a', 'b', 'c'] = some true := by decide

/-- C8: for every successfully compiled engine and every input string the
match operation yields a definite boolean; in the model a raised error
or exhausted recursion would surface as none, and none never occurs. -/
theorem C8_total_matching (p s : List Char) (_h : exOk (RegexFSM.new p) = true) :
    ∃ b : Bool, checkString p s = some b := by
  rw [checkString]
  refine Option.isSome_iff_exists.mp
    (canMatchF_isSome (enoughFuel (buildStates p) s) (.startS (buildStates p)) s 0
      (Nat.zero_le _) ?_)
  simp [enoughFuel]

/-- C8 (witness): the statement at the pattern a and the input b. -/
theorem C8_total_matching_witness :
    exOk (RegexFSM.new ['a']) = true ∧ ∃ b : Bool, checkString ['a'] ['b'] = some b :=
  ⟨by decide, C8_total_matching ['a'] ['b'] (by decide)⟩

/-- C9: the engine compiled from the empty pattern accepts the empty
input and rejects every nonempty input. -/
theorem C9_empty_pattern :
    checkString [] [] = some true ∧
    ∀ s : List Char, s ≠ [] → checkString [] s = some false :=
  ⟨by decide, fun s hs => checkString_empty_reject s hs⟩

/-- C9 (witness): the nonempty-input part at the one-character input x. -/
theorem C9_empty_pattern_witness :
    (['x'] : List Char) ≠ [] ∧ checkString [] ['x'] = some false :=
  ⟨by decide, C9_empty_pattern.2 ['x'] (by decide)⟩

/-- C10: compiling succeeds exactly when every pattern character is
ASCII, patterns beginning with a quantifier included; a star or plus
arriving on an empty chain is pushed as an ordinary AsciiState for that
very character, in the heap model and in the tree model alike, and the
pattern *a accepts the input *a. -/
theorem C10_ascii_always_compiles :
    (∀ p : List Char, exOk (RegexFSM.new p) = p.all pyIsAscii) ∧
    (∀ heap : List PNode,
      checkScanStep (heap, []) '*' = (heap ++ [⟨.pascii '*', []⟩], [heap.length])) ∧
    (∀ heap : List PNode,
      checkScanStep (heap, []) '+' = (heap ++ [⟨.pascii '+', []⟩], [heap.length])) ∧
    scanStepR [] '*' = [.ascii '*'] ∧
    scanStepR [] '+' = [.ascii '+'] ∧
    checkString ['*', 'a'] ['*', 'a'] = some true ∧
    checkString ['+', 'a'] ['+', 'a'] = some true :=
  ⟨new_ok_iff, fun _ => rfl, fun _ => rfl, by decide, by decide, by decide, by decide⟩

theorem decodeTree_succ (heap : List PNode) (f i : Nat) :
    decodeTree heap (f + 1) i =
      match heap.get? i with
      | some ⟨.pdot, _⟩ => some .dot
      | some ⟨.pascii c, _⟩ => some (.ascii c)
      | some ⟨.pstar j, _⟩ => (decodeTree heap f j).map .star
      | some ⟨.pplus j, _⟩ => (decodeTree heap f j).map .plus
      | _ => none := rfl

theorem decodeTree_extend (h l2 : List PNode) : ∀ (f i : Nat) (t : RTree),
    decodeTree h f i = some t → decodeTree (h ++ l2) f i = some t := by
  intro f
  induction f with
  | zero => intro i t ht; exact Option.noConfusion ht
  | succ f ih =>
    intro i t ht
    rw [decodeTree_succ] at ht
    rw [decodeTree_succ]
    cases hnd : h.get? i with
    | none => rw [hnd] at ht; exact Option.noConfusion ht
    | some nd =>
      have hlt : i < h.length := (List.get?_eq_some.mp hnd).1
      have hnd2 : (h ++ l2).get? i = some nd := by rw [List.get?_append hlt, hnd]
      rw [hnd] at ht
      rw [hnd2]
      obtain ⟨kind, next⟩ := nd
      cases kind with
      | pstart => exact Option.noConfusion ht
      | pterm => exact Option.noConfusion ht
      | pdot => exact ht
      | pascii c => exact ht
      | pstar j =>
        have ht2 : (decodeTree h f j).map RTree.star = some t := ht
        obtain ⟨u, hu, hut⟩ := Option.map_eq_some'.mp ht2
        subst hut
        show (decodeTree (h ++ l2) f j).map RTree.star = some (.star u)
        rw [ih j u hu]
        rfl
      | pplus j =>
        have ht2 : (decodeTree h f j).map RTree.plus = some t := ht
        obtain ⟨u, hu, hut⟩ := Option.map_eq_some'.mp ht2
        subst hut
        show (decodeTree (h ++ l2) f j).map RTree.plus = some (.plus u)
        rw [ih j u hu]
        rfl

theorem scanAgree : ∀ (p : List Char) (h : List PNode) (idxs : List Nat) (trees : List RTree),
    List.Forall₂ (fun i t => ∃ f, decodeTree h f i = some t) idxs trees →
    List.Forall₂ (fun i t => ∃ f, decodeTree (p.foldl checkScanStep (h, idxs)).1 f i = some t)
      (p.foldl checkScanStep (h, idxs)).2 (p.foldl scanStepR trees) := by
  intro p
  induction p with
  | nil => intro h idxs trees hF; exact hF
  | cons c rest ih =>
    intro h idxs trees hF
    rw [List.foldl_cons, List.foldl_cons]
    cases hF with
    | nil =>
      by_cases hdot : c = '.'
      · subst hdot
        have h1 : checkScanStep (h, []) '.' = (h ++ [⟨.pdot, []⟩], [h.length]) := rfl
        have h2 : scanStepR [] '.' = [.dot] := rfl
        rw [h1, h2]
        refine ih _ _ _ (List.Forall₂.cons ⟨1, ?_⟩ List.Forall₂.nil)
        rw [decodeTree_succ, List.get?_concat_length]
      · have h1 : checkScanStep (h, []) c = (h ++ [⟨.pascii c, []⟩], [h.length]) := by
          simp [checkScanStep, hdot]
        have h2 : scanStepR [] c = [.ascii c] := by simp [scanStepR, hdot]
        rw [h1, h2]
        refine ih _ _ _ (List.Forall₂.cons ⟨1, ?_⟩ List.Forall₂.nil)
        rw [decodeTree_succ, List.get?_concat_length]
    | cons hR hRrest =>
      rename_i i0 t0 irest trest
      by_cases hstar : c = '*'
      · subst hstar
        have h1 : checkScanStep (h, i0 :: irest) '*' =
            (h ++ [⟨.pstar i0, [i0]⟩], h.length :: irest) := rfl
        have h2 : scanStepR (t0 :: trest) '*' = .star t0 :: trest := rfl
        rw [h1, h2]
        refine ih _ _ _ (List.Forall₂.cons ?_ (hRrest.imp fun i t hit => ?_))
        · obtain ⟨f, hf⟩ := hR
          refine ⟨f + 1, ?_⟩
          have hd : decodeTree (h ++ [⟨.pstar i0, [i0]⟩]) (f + 1) h.length =
              (decodeTree (h ++ [⟨.pstar i0, [i0]⟩]) f i0).map RTree.star := by
            rw [decodeTree_succ, List.get?_concat_length]
          rw [hd, decodeTree_extend h _ f i0 t0 hf]
          rfl
        · obtain ⟨f, hf⟩ := hit
          exact ⟨f, decodeTree_extend h _ f i t hf⟩
      · by_cases hplus : c = '+'
        · subst hplus
          have h1 : checkScanStep (h, i0 :: irest) '+' =
              (h ++ [⟨.pplus i0, [i0]⟩], h.length :: irest) := rfl
          have h2 : scanStepR (t0 :: trest) '+' = .plus t0 :: trest := rfl
          rw [h1, h2]
          refine ih _ _ _ (List.Forall₂.cons ?_ (hRrest.imp fun i t hit => ?_))
          · obtain ⟨f, hf⟩ := hR
            refine ⟨f + 1, ?_⟩
            have hd : decodeTree (h ++ [⟨.pplus i0, [i0]⟩]) (f + 1) h.length =
                (decodeTree (h ++ [⟨.pplus i0, [i0]⟩]) f i0).map RTree.plus := by
              rw [decodeTree_succ, List.get?_concat_length]
            rw [hd, decodeTree_extend h _ f i0 t0 hf]
            rfl
          · obtain ⟨f, hf⟩ := hit
            exact ⟨f, decodeTree_extend h _ f i t hf⟩
        · by_cases hdot : c = '.'
          · subst hdot
            have h1 : checkScanStep (h, i0 :: irest) '.' =
                (h ++ [⟨.pdot, []⟩], h.length :: i0 :: irest) := rfl
            have h2 : scanStepR (t0 :: trest) '.' = .dot :: t0 :: trest := rfl
            rw [h1, h2]
            refine ih _ _ _ (List.Forall₂.cons ⟨1, ?_⟩
              ((List.Forall₂.cons hR hRrest).imp fun i t hit => ?_))
            · rw [decodeTree_succ, List.get?_concat_length]
            · obtain ⟨f, hf⟩ := hit
              exact ⟨f, decodeTree_extend h _ f i t hf⟩
          · have h1 : checkScanStep (h, i0 :: irest) c =
                (h ++ [⟨.pascii c, []⟩], h.length :: i0 :: irest) := by
              simp [checkScanStep, hstar, hplus, hdot]
            have h2 : scanStepR (t0 :: trest) c = .ascii c :: t0 :: trest :=
              scanStepR_lit (t0 :: trest) c hstar hplus hdot
            rw [h1, h2]
            refine ih _ _ _ (List.Forall₂.cons ⟨1, ?_⟩
              ((List.Forall₂.cons hR hRrest).imp fun i t hit => ?_))
            · rw [decodeTree_succ, List.get?_concat_length]
            · obtain ⟨f, hf⟩ := hit
              exact ⟨f, decodeTree_extend h _ f i t hf⟩

theorem heap_scan_decodes_buildStates (p : List Char) (h0 : List PNode) :
    List.Forall₂ (fun i t => ∃ f, decodeTree (p.foldl checkScanStep (h0, [])).1 f i = some t)
      ((p.foldl checkScanStep (h0, [])).2).reverse (buildStates p) := by
  have h := scanAgree p h0 [] [] List.Forall₂.nil
  rw [buildStates]
  exact List.forall₂_reverse_iff.mpr h
